import Mathlib

/-!
Shallow embedding of the engagement-scoring and heuristic-recommendation
pipeline of `src/pingtop_recs.py`.

Modelling conventions:
* numeric (float) values are modelled as `Rat`;
* nullable columns are modelled as `Option`;
* timestamps are modelled as integer epoch seconds (`Int`);
* a pandas left merge / index map on a uniquely-keyed frame is modelled by
  `List.find?` on the key;
* `groupby` group keys are the distinct key values in ascending order
  (pandas `groupby(sort=True)` default);
* `sort_values(by=k, ascending=False)` is modelled as: reverse the rows,
  stably sort them ascending by `k`, and reverse again.  This is what
  pandas' `nargsort` does for `ascending=False`: it reverses the values
  AND the positions before taking the ascending argsort and reverses the
  composed indexer afterwards, so the net effect is a descending sort in
  which tied rows keep their original relative order.
-/

namespace PingRecs

/-- One row of the interactions table, after the upstream I/O layer has
normalised columns.  `watch_time_sec` is nullable; line 70 of the source
(`fillna(0)`) resolves a missing value to 0. -/
structure Event where
  user_id : String
  ping_id : String
  event_type : String
  watch_time_sec : Option Rat
  deriving DecidableEq

/-- One row of the pings (catalog) table.  `duration_sec` is already
resolved by the upstream fallback (lines 57-60); `created_at` is nullable,
in epoch seconds. -/
structure Ping where
  ping_id : String
  creator_id : String
  main_hashtag : String
  category : String
  duration_sec : Rat
  created_at : Option Int
  deriving DecidableEq

/-! ### Sorting machinery

`isort` is a stable insertion sort by a boolean comparator; it models the
(stable) ascending argsort inside pandas `sort_values`.  A descending
`sort_values` is `sortValuesDesc`: pandas' `nargsort` reverses the values
and positions before the ascending argsort and reverses the composed
indexer after, so on the row list it is reverse, stable ascending sort,
reverse — a stable descending sort. -/

/-- Insert `x` into `l`, before the first element `y` with `le x y`. -/
def insertAsc {α : Type} (le : α → α → Bool) (x : α) : List α → List α
  | [] => [x]
  | y :: ys => if le x y then x :: y :: ys else y :: insertAsc le x ys

/-- Stable insertion sort (ascending) by `le`. -/
def isort {α : Type} (le : α → α → Bool) : List α → List α
  | [] => []
  | x :: xs => insertAsc le x (isort le xs)

theorem mem_insertAsc {α : Type} (le : α → α → Bool) (x : α) :
    ∀ (l : List α) (z : α), z ∈ insertAsc le x l ↔ z = x ∨ z ∈ l := by
  intro l
  induction l with
  | nil => intro z; simp [insertAsc]
  | cons y ys ih =>
    intro z
    cases h : le x y with
    | true =>
      simp only [insertAsc, h, if_true, List.mem_cons]
    | false =>
      simp only [insertAsc, h, Bool.false_eq_true, if_false, List.mem_cons, ih z]
      tauto

theorem perm_insertAsc {α : Type} (le : α → α → Bool) (x : α) :
    ∀ l : List α, (insertAsc le x l).Perm (x :: l) := by
  intro l
  induction l with
  | nil => simp [insertAsc]
  | cons y ys ih =>
    by_cases h : le x y = true
    · simp [insertAsc, h]
    · simp only [insertAsc, h, if_false]
      exact (ih.cons y).trans (List.Perm.swap x y ys)

theorem perm_isort {α : Type} (le : α → α → Bool) :
    ∀ l : List α, (isort le l).Perm l := by
  intro l
  induction l with
  | nil => simp [isort]
  | cons x xs ih =>
    exact (perm_insertAsc le x (isort le xs)).trans (ih.cons x)

theorem mem_isort {α : Type} (le : α → α → Bool) (l : List α) (z : α) :
    z ∈ isort le l ↔ z ∈ l :=
  (perm_isort le l).mem_iff

theorem length_isort {α : Type} (le : α → α → Bool) (l : List α) :
    (isort le l).length = l.length :=
  (perm_isort le l).length_eq

/-- Inserting preserves sortedness of a totally-preordered boolean
comparator (totality and transitivity supplied as hypotheses). -/
theorem pairwise_insertAsc {α : Type} (le : α → α → Bool)
    (htot : ∀ a b, le a b = true ∨ le b a = true)
    (htrans : ∀ a b c, le a b = true → le b c = true → le a c = true)
    (x : α) :
    ∀ l : List α, l.Pairwise (fun a b => le a b = true) →
      (insertAsc le x l).Pairwise (fun a b => le a b = true) := by
  intro l
  induction l with
  | nil => intro _; simp [insertAsc]
  | cons y ys ih =>
    intro hp
    rcases List.pairwise_cons.mp hp with ⟨hy, hys⟩
    cases h : le x y with
    | true =>
      have hrw : insertAsc le x (y :: ys) = x :: y :: ys := by
        simp [insertAsc, h]
      rw [hrw]
      refine List.pairwise_cons.mpr ⟨?_, hp⟩
      intro z hz
      rcases List.mem_cons.mp hz with rfl | hz
      · exact h
      · exact htrans x y z h (hy z hz)
    | false =>
      have hrw : insertAsc le x (y :: ys) = y :: insertAsc le x ys := by
        simp [insertAsc, h]
      rw [hrw]
      refine List.pairwise_cons.mpr ⟨?_, ih hys⟩
      intro z hz
      rcases (mem_insertAsc le x ys z).mp hz with rfl | hz
      · rcases htot z y with h' | h'
        · simp [h'] at h
        · exact h'
      · exact hy z hz

/-- Stability of insertion into a stably sorted list: inserting `x` into a
list that is pairwise "strictly below in `f`, or tied in `f` and related by
the original-order relation `r`", where `x` is `r`-below every element,
keeps that invariant. -/
theorem insertAsc_pairwise_lex {α : Type} (f : α → Rat) (r : α → α → Prop)
    (x : α) :
    ∀ l : List α,
      l.Pairwise (fun a b => f a < f b ∨ (f a = f b ∧ r a b)) →
      (∀ y ∈ l, r x y) →
      (insertAsc (fun a b => decide (f a ≤ f b)) x l).Pairwise
        (fun a b => f a < f b ∨ (f a = f b ∧ r a b)) := by
  intro l
  induction l with
  | nil => intro _ _; simp [insertAsc]
  | cons y ys ih =>
    intro hp hg
    rcases List.pairwise_cons.mp hp with ⟨hy, hys⟩
    by_cases h : f x ≤ f y
    · have hrw : insertAsc (fun a b => decide (f a ≤ f b)) x (y :: ys) =
          x :: y :: ys := by
        simp [insertAsc, h]
      rw [hrw]
      refine List.pairwise_cons.mpr ⟨?_, hp⟩
      intro z hz
      have hgz : r x z := hg z hz
      rcases List.mem_cons.mp hz with rfl | hz
      · rcases lt_or_eq_of_le h with h' | h'
        · exact Or.inl h'
        · exact Or.inr ⟨h', hgz⟩
      · have hyz : f y ≤ f z := by
          rcases hy z hz with h' | h'
          · exact le_of_lt h'
          · exact le_of_eq h'.1
        rcases lt_or_eq_of_le (le_trans h hyz) with h' | h'
        · exact Or.inl h'
        · exact Or.inr ⟨h', hgz⟩
    · have hrw : insertAsc (fun a b => decide (f a ≤ f b)) x (y :: ys) =
          y :: insertAsc (fun a b => decide (f a ≤ f b)) x ys := by
        simp [insertAsc, h]
      rw [hrw]
      refine List.pairwise_cons.mpr
        ⟨?_, ih hys (fun z hz => hg z (List.mem_cons_of_mem y hz))⟩
      intro z hz
      rcases (mem_insertAsc _ x ys z).mp hz with rfl | hz
      · exact Or.inl (lt_of_not_le h)
      · exact hy z hz

/-- Stability of `isort`: sorting ascending by `f` a list whose rows are
pairwise related by `r` (the original order) produces a list that is
pairwise "strictly below in `f`, or tied in `f` and in original order". -/
theorem isort_pairwise_lex {α : Type} (f : α → Rat) (r : α → α → Prop) :
    ∀ l : List α, l.Pairwise r →
      (isort (fun a b => decide (f a ≤ f b)) l).Pairwise
        (fun a b => f a < f b ∨ (f a = f b ∧ r a b)) := by
  intro l
  induction l with
  | nil => intro _; simp [isort]
  | cons x xs ih =>
    intro hp
    rcases List.pairwise_cons.mp hp with ⟨hx, hxs⟩
    refine insertAsc_pairwise_lex f r x (isort _ xs) (ih hxs) ?_
    intro z hz
    exact hx z ((mem_isort _ xs z).mp hz)

theorem pairwise_isort {α : Type} (le : α → α → Bool)
    (htot : ∀ a b, le a b = true ∨ le b a = true)
    (htrans : ∀ a b c, le a b = true → le b c = true → le a c = true) :
    ∀ l : List α, (isort le l).Pairwise (fun a b => le a b = true) := by
  intro l
  induction l with
  | nil => simp [isort]
  | cons x xs ih =>
    exact pairwise_insertAsc le htot htrans x (isort le xs) ih

/-- pandas `sort_values(by=k, ascending=False)` on a row list, as
`nargsort` implements it: the rows (values and positions) are reversed, an
ascending stable argsort is taken, and the composed indexer is reversed
again.  Tied rows therefore keep their original relative order. -/
def sortValuesDesc {α : Type} (le : α → α → Bool) (l : List α) : List α :=
  (isort le l.reverse).reverse

theorem mem_sortValuesDesc {α : Type} (le : α → α → Bool) (l : List α)
    (z : α) : z ∈ sortValuesDesc le l ↔ z ∈ l := by
  unfold sortValuesDesc
  rw [List.mem_reverse, mem_isort, List.mem_reverse]

theorem length_sortValuesDesc {α : Type} (le : α → α → Bool) (l : List α) :
    (sortValuesDesc le l).length = l.length := by
  unfold sortValuesDesc
  rw [List.length_reverse, length_isort, List.length_reverse]

/-! ### String ordering helpers

pandas sorts string group keys with Python's lexicographic string order,
which coincides with the lexicographic order on the character (code point)
lists.  `strLeB` is the boolean comparator used by the modelled sorts; it
is phrased on `String.data` so that it evaluates on concrete inputs. -/

def strLeB (a b : String) : Bool := decide (a.data ≤ b.data)

theorem strLeB_iff (a b : String) : strLeB a b = true ↔ a ≤ b := by
  rw [strLeB, decide_eq_true_iff, String.le_iff_toList_le]
  exact Iff.rfl

theorem string_lt_iff_data_lt (a b : String) : a < b ↔ a.data < b.data :=
  String.lt_iff_toList_lt

/-! ### Engagement computation (source lines 70-92) -/

/-- Source line 76-83: the per-event-type weight dictionary; `weights.get(et, 0.0)`
returns 0 for an unrecognized type. -/
def weights (et : String) : Rat :=
  if et = "view" then 1
  else if et = "like" then 2
  else if et = "comment" then 3
  else if et = "share" then 4
  else if et = "follow_creator" then 2
  else if et = "impression" then 1/10
  else 0

/-- Source lines 71-72: `inter.merge(pings[['ping_id','duration_sec']], how='left')`
followed by `fillna(30)`: the duration of the event's ping, or 30 when the
ping is not in the catalog. -/
def resolved_duration (pings : List Ping) (pid : String) : Rat :=
  match pings.find? (fun p => p.ping_id = pid) with
  | some p => p.duration_sec
  | none => 30

/-- Source line 73: `watch_time_ratio` is `watch / duration` for a view
event and NaN (modelled as `none`) otherwise. -/
def watch_time_ratio (et : String) (watch dur : Rat) : Option Rat :=
  if et = "view" then some (watch / dur) else none

/-- Source lines 85-90: `event_score`.  A view event scores
`weights['view'] * watch_time_ratio` (0 when the ratio is NaN); any other
event type scores `weights.get(et, 0.0)`.  `watch` is the nullable raw
watch time; line 70's `fillna(0)` is the `Option.getD 0`. -/
def event_score (et : String) (watch : Option Rat) (dur : Rat) : Rat :=
  if et = "view" then
    weights "view" * (( watch_time_ratio et (watch.getD 0) dur).getD 0)
  else weights et

/-- `event_score` applied to one row of the interactions table (line 92). -/
def event_score_row (pings : List Ping) (e : Event) : Rat :=
  event_score e.event_type e.watch_time_sec (resolved_duration pings e.ping_id)

/-! ### Aggregation (source lines 95-105) -/

/-- `engagement_score` of the `user_ping` aggregate: the sum of event
scores over the events of one `(user_id, ping_id)` group. -/
def user_ping_engagement (inter : List Event) (pings : List Ping)
    (uid pid : String) : Rat :=
  ((inter.filter (fun e => e.user_id = uid ∧ e.ping_id = pid)).map
    (event_score_row pings)).sum

/-- The distinct users having at least one event on `pid`
(`users_interacted` via `nunique`). -/
def users_of_ping (inter : List Event) (pid : String) : List String :=
  ((inter.filter (fun e => e.ping_id = pid)).map (fun e => e.user_id)).dedup

/-- `global_engagement` of a ping: the sum over the `user_ping` rows of the
group, i.e. over the distinct users of the ping. -/
def global_engagement (inter : List Event) (pings : List Ping)
    (pid : String) : Rat :=
  ((users_of_ping inter pid).map
    (fun u => user_ping_engagement inter pings u pid)).sum

/-- The group keys of `groupby('ping_id')`: the distinct ping ids of the
interactions table, in ascending order (pandas `sort=True` default). -/
def pingIds (inter : List Event) : List String :=
  isort strLeB ((inter.map (fun e => e.ping_id)).dedup)

/-- One row of the `ping_global` output table. -/
structure GRow where
  ping_id : String
  global_engagement : Rat
  users_interacted : Nat
  deriving DecidableEq

/-- The `ping_global` rows as produced by `groupby('ping_id').agg(...)`,
before sorting: one row per distinct ping id, keys ascending. -/
def ping_global_unsorted (inter : List Event) (pings : List Ping) : List GRow :=
  (pingIds inter).map (fun pid =>
    ⟨pid, global_engagement inter pings pid, (users_of_ping inter pid).length⟩)

/-- Source lines 102-105: `ping_global`, sorted with
`sort_values('global_engagement', ascending=False)` (stable descending:
tied rows keep the groupby's ping_id-ascending order). -/
def ping_global (inter : List Event) (pings : List Ping) : List GRow :=
  sortValuesDesc
    (fun a b => decide (a.global_engagement ≤ b.global_engagement))
    (ping_global_unsorted inter pings)

/-! ### Item features (source lines 148-157) -/

/-- Source line 149: `items['global_pop']`: the ping's `global_engagement`
looked up in `ping_global` (`set_index('ping_id')` map), `fillna(0.0)`. -/
def global_pop (inter : List Event) (pings : List Ping) (pid : String) : Rat :=
  match (ping_global inter pings).find? (fun r => r.ping_id = pid) with
  | some r => r.global_engagement
  | none => 0

/-- Minimum of a list of rationals (0 on the empty list, where pandas
would produce NaN; the source only uses it on the nonempty catalog). -/
def rmin : List Rat → Rat
  | [] => 0
  | [x] => x
  | x :: y :: xs => min x (rmin (y :: xs))

/-- Maximum of a list of rationals (0 on the empty list). -/
def rmax : List Rat → Rat
  | [] => 0
  | [x] => x
  | x :: y :: xs => max x (rmax (y :: xs))

/-- The `items['global_pop']` column: one engagement value per catalog row. -/
def engagement_values (inter : List Event) (pings : List Ping) : List Rat :=
  pings.map (fun p => global_pop inter pings p.ping_id)

/-- Source lines 150-153: min-max normalized popularity; 0.0 for every item
when `max > min` fails. -/
def global_pop_norm (inter : List Event) (pings : List Ping) (pid : String) : Rat :=
  let vs := engagement_values inter pings
  if rmin vs < rmax vs then
    (global_pop inter pings pid - rmin vs) / (rmax vs - rmin vs)
  else 0

/-- `pd.to_datetime('2024-02-20')` in epoch seconds: the fixed fallback
reference date of source line 155. -/
def fallback_now : Int := 1708387200

/-- The known (non-null) creation times of the catalog. -/
def known_times (pings : List Ping) : List Int :=
  pings.filterMap (fun p => p.created_at)

/-- Maximum of a nonempty list of integers via `foldl max`. -/
def imaxFold (x : Int) (l : List Int) : Int := l.foldl max x

/-- Source line 155: `now = items['created_at'].max()` when any creation
time is known, else the fixed fallback date. -/
def reference_now (pings : List Ping) : Int :=
  match known_times pings with
  | [] => fallback_now
  | t :: ts => imaxFold t ts

/-- Source line 156: `age_days = (now - created_at).dt.days.fillna(30)`.
`.dt.days` is the whole-day (floor) difference; a missing `created_at`
defaults to 30 days. -/
def age_days (pings : List Ping) (created : Option Int) : Int :=
  match created with
  | some t => (reference_now pings - t).fdiv 86400
  | none => 30

/-- `1 / (1 + age_days)` as a function of the age. -/
def fresh_of_age (d : Int) : Rat := 1 / (1 + (d : Rat))

/-- Source line 157: the freshness of a catalog row. -/
def freshness (pings : List Ping) (p : Ping) : Rat :=
  fresh_of_age (age_days pings p.created_at)

/-! ### User affinities (source lines 160-168)

`int_meta` is the left merge of the interactions with the catalog columns
`category` / `creator_id` on `ping_id`: an event whose ping is absent from
the catalog gets NaN (modelled `none`) in those columns.  The groupby on
`['user_id', 'category']` drops rows whose group key is NaN (pandas
`dropna=True` default), while `groupby('user_id').size()` counts all rows. -/

/-- Category of an event's ping after the left merge: `none` when the ping
has no catalog match. -/
def matched_category (pings : List Ping) (pid : String) : Option String :=
  (pings.find? (fun p => p.ping_id = pid)).map (fun p => p.category)

/-- Creator of an event's ping after the left merge. -/
def matched_creator (pings : List Ping) (pid : String) : Option String :=
  (pings.find? (fun p => p.ping_id = pid)).map (fun p => p.creator_id)

/-- The events of one user. -/
def events_of (inter : List Event) (uid : String) : List Event :=
  inter.filter (fun e => e.user_id = uid)

/-- Source line 162: `user_total = int_meta.groupby('user_id').size()` —
ALL events of the user, catalog-matched or not. -/
def user_total (inter : List Event) (uid : String) : Nat :=
  (events_of inter uid).length

/-- Size of the `(user_id, category)` group: the user's events whose ping
is catalog-matched with that category. -/
def user_cat_count (inter : List Event) (pings : List Ping)
    (uid c : String) : Nat :=
  ((events_of inter uid).filter
    (fun e => matched_category pings e.ping_id = some c)).length

/-- Size of the `(user_id, creator_id)` group. -/
def user_creator_count (inter : List Event) (pings : List Ping)
    (uid cr : String) : Nat :=
  ((events_of inter uid).filter
    (fun e => matched_creator pings e.ping_id = some cr)).length

/-- Source line 164: `cat_affinity = count / total`. -/
def cat_affinity (inter : List Event) (pings : List Ping)
    (uid c : String) : Rat :=
  (user_cat_count inter pings uid c : Rat) / (user_total inter uid : Rat)

/-- Source line 168: `creator_affinity = count / total`. -/
def creator_affinity (inter : List Event) (pings : List Ping)
    (uid cr : String) : Rat :=
  (user_creator_count inter pings uid cr : Rat) / (user_total inter uid : Rat)

/-- The categories of the user's rows in the `user_cat` table: the distinct
non-NaN matched categories of the user's events. -/
def user_categories (inter : List Event) (pings : List Ping)
    (uid : String) : List String :=
  ((events_of inter uid).filterMap
    (fun e => matched_category pings e.ping_id)).dedup

/-- The creators of the user's rows in the `user_creator` table. -/
def user_creators (inter : List Event) (pings : List Ping)
    (uid : String) : List String :=
  ((events_of inter uid).filterMap
    (fun e => matched_creator pings e.ping_id)).dedup

/-- Number of catalog-matched events of the user. -/
def matched_count (inter : List Event) (pings : List Ping)
    (uid : String) : Nat :=
  ((events_of inter uid).filterMap
    (fun e => matched_category pings e.ping_id)).length

/-- Sum of the user's category affinities over the user's rows of the
`user_cat` table. -/
def cat_affinity_sum (inter : List Event) (pings : List Ping)
    (uid : String) : Rat :=
  ((user_categories inter pings uid).map
    (cat_affinity inter pings uid)).sum

/-- Sum of the user's creator affinities. -/
def creator_affinity_sum (inter : List Event) (pings : List Ping)
    (uid : String) : Rat :=
  ((user_creators inter pings uid).map
    (creator_affinity inter pings uid)).sum

/-! ### Recommendation ranker (source lines 171-192) -/

/-- Source line 175: `df['category'].map(ucat).fillna(0.0)` — the user's
category affinity for the item's category, 0 when the user has no
`user_cat` row for it. -/
def cat_aff_lookup (inter : List Event) (pings : List Ping)
    (uid c : String) : Rat :=
  if user_cat_count inter pings uid c = 0 then 0
  else cat_affinity inter pings uid c

/-- Source line 176: `df['creator_id'].map(ucre).fillna(0.0)`. -/
def cre_aff_lookup (inter : List Event) (pings : List Ping)
    (uid cr : String) : Rat :=
  if user_creator_count inter pings uid cr = 0 then 0
  else creator_affinity inter pings uid cr

/-- One row of the scoring frame `df` inside `recommend_for_user`: the
catalog row together with its feature columns and the linear score of
source line 177. -/
structure ScoredItem where
  ping : Ping
  user_cat_aff : Rat
  user_cre_aff : Rat
  pop_norm : Rat
  fresh : Rat
  score : Rat
  deriving DecidableEq

/-- Rows of `df` after source line 177. -/
def score_item (inter : List Event) (pings : List Ping) (uid : String)
    (alpha beta gamma delta : Rat) (p : Ping) : ScoredItem :=
  let pn := global_pop_norm inter pings p.ping_id
  let fr := freshness pings p
  let ca := cat_aff_lookup inter pings uid p.category
  let cr := cre_aff_lookup inter pings uid p.creator_id
  ⟨p, ca, cr, pn, fr, alpha * pn + beta * ca + gamma * cr + delta * fr⟩

/-- Source line 179: `seen = inter[inter['user_id']==uid]['ping_id'].unique()`. -/
def seen_pings (inter : List Event) (uid : String) : List String :=
  ((events_of inter uid).map (fun e => e.ping_id)).dedup

/-- Source line 180: the scored catalog without the user's seen pings. -/
def rec_candidates (inter : List Event) (pings : List Ping) (uid : String)
    (alpha beta gamma delta : Rat) : List ScoredItem :=
  (pings.map (score_item inter pings uid alpha beta gamma delta)).filter
    (fun s => decide (s.ping.ping_id ∉ seen_pings inter uid))

/-- Source line 181: `df.sort_values('score', ascending=False)` (stable
descending: tied rows keep their catalog order). -/
def rec_sorted (inter : List Event) (pings : List Ping) (uid : String)
    (alpha beta gamma delta : Rat) : List ScoredItem :=
  sortValuesDesc (fun a b => decide (a.score ≤ b.score))
    (rec_candidates inter pings uid alpha beta gamma delta)

/-- Source lines 184-190: the reason string of one recommended row, built
by evaluating the four conditions in their fixed order and joining the
labels of the true ones with `"; "` (fallback `"popular/new"`). -/
def reason_for (ca cr pn fr : Rat) (cat : String) : String :=
  let parts : List String :=
    (if 0 < ca then ["prefers cat=" ++ cat] else []) ++
    (if 0 < cr then ["engaged this creator"] else []) ++
    (if 1/2 < pn then ["globally popular"] else []) ++
    (if 1/50 < fr then ["recent"] else [])
  if parts = [] then "popular/new" else String.intercalate "; " parts

/-- One output row of `recommend_for_user` (source line 192's columns). -/
structure RecRow where
  ping_id : String
  score : Rat
  category : String
  main_hashtag : String
  creator_id : String
  reason : String
  deriving DecidableEq

/-- Source lines 171-192: `recommend_for_user(uid, topk, alpha, beta,
gamma, delta)`: score every catalog item, drop the user's seen pings, sort
by score descending, take the first `topk` rows and attach reasons. -/
def recommend_for_user (inter : List Event) (pings : List Ping)
    (uid : String) (topk : Nat) (alpha beta gamma delta : Rat) : List RecRow :=
  ((rec_sorted inter pings uid alpha beta gamma delta).take topk).map
    (fun s => ⟨s.ping.ping_id, s.score, s.ping.category, s.ping.main_hashtag,
      s.ping.creator_id,
      reason_for s.user_cat_aff s.user_cre_aff s.pop_norm s.fresh s.ping.category⟩)

/-! ### Theorems -/

theorem weights_nonneg (et : String) : 0 ≤ weights et := by
  unfold weights
  split_ifs <;> norm_num

/-- Claim C4: for every interaction event (with watch_time_sec ≥ 0 and
resolved duration_sec > 0), `event_score` is non-negative; a view event
scores `view_weight * (watch_time_sec / duration_sec)` with a missing
watch time treated as 0; like scores 2.0, comment 3.0, share 4.0,
follow_creator 2.0, impression 0.1; and any unrecognized event_type scores
exactly 0.0. -/
theorem event_score_spec (et : String) (watch : Option Rat) (dur : Rat)
    (hw : 0 ≤ watch.getD 0) (hd : 0 < dur) :
    0 ≤ event_score et watch dur ∧
    event_score "view" watch dur = weights "view" * (watch.getD 0 / dur) ∧
    event_score "view" none dur = 0 ∧
    event_score "like" watch dur = 2 ∧
    event_score "comment" watch dur = 3 ∧
    event_score "share" watch dur = 4 ∧
    event_score "follow_creator" watch dur = 2 ∧
    event_score "impression" watch dur = 1 / 10 ∧
    (et ∉ (["view", "like", "comment", "share", "follow_creator",
        "impression"] : List String) →
      event_score et watch dur = 0) := by
  refine ⟨?_, ?_, ?_, ?_, ?_, ?_, ?_, ?_, ?_⟩
  · by_cases h : et = "view"
    · subst h
      simp only [event_score, watch_time_ratio, if_pos rfl, Option.getD_some]
      exact mul_nonneg (weights_nonneg "view") (div_nonneg hw (le_of_lt hd))
    · simp only [event_score, if_neg h]
      exact weights_nonneg et
  · simp [event_score, watch_time_ratio, weights]
  · simp [event_score, watch_time_ratio, weights]
  · simp [event_score, weights]
  · simp [event_score, weights]
  · simp [event_score, weights]
  · simp [event_score, weights]
  · simp [event_score, weights]
  · intro h
    simp only [List.mem_cons, List.not_mem_nil, or_false, not_or] at h
    obtain ⟨h1, h2, h3, h4, h5, h6⟩ := h
    simp [event_score, weights, h1, h2, h3, h4, h5, h6]

theorem event_score_spec_witness :
    event_score "like" (some 5) 30 = 2 ∧ event_score "dwell" (some 5) 30 = 0 :=
  ⟨(event_score_spec "like" (some 5) 30 (by norm_num) (by norm_num)).2.2.2.1,
    (event_score_spec "dwell" (some 5) 30 (by norm_num) (by norm_num)).2.2.2.2.2.2.2.2
      (by decide)⟩

/-- Claim C9: the watch-time ratio of a view event is not capped at 1:
whenever watch_time_sec exceeds duration_sec, the event scores strictly
more than the view weight; e.g. watch time 60 on a 30-second ping scores
2.0. -/
theorem watch_ratio_uncapped (watch dur : Rat) (hd : 0 < dur)
    (hw : dur < watch) :
    weights "view" < event_score "view" (some watch) dur ∧
    event_score "view" (some 60) 30 = 2 := by
  constructor
  · have h1 : (1 : Rat) < watch / dur := (one_lt_div hd).mpr hw
    have hv : weights "view" = 1 := by simp [weights]
    have hs : event_score "view" (some watch) dur = 1 * (watch / dur) := by
      simp [event_score, watch_time_ratio, weights]
    rw [hv, hs]
    linarith
  · norm_num [event_score, watch_time_ratio, weights]

theorem watch_ratio_uncapped_witness :
    weights "view" < event_score "view" (some 60) 30 :=
  (watch_ratio_uncapped 60 30 (by norm_num) (by norm_num)).1

theorem rmin_le_of_mem : ∀ (l : List Rat), ∀ x ∈ l, rmin l ≤ x := by
  intro l
  induction l with
  | nil => intro x hx; simp at hx
  | cons a t ih =>
    intro x hx
    cases t with
    | nil =>
      rcases List.mem_cons.mp hx with rfl | hx
      · simp [rmin]
      · simp at hx
    | cons b t2 =>
      rcases List.mem_cons.mp hx with rfl | hx
      · simp only [rmin]
        exact min_le_left _ _
      · calc rmin (a :: b :: t2) ≤ rmin (b :: t2) := by
              simp only [rmin]; exact min_le_right _ _
          _ ≤ x := ih x hx

theorem le_rmax_of_mem : ∀ (l : List Rat), ∀ x ∈ l, x ≤ rmax l := by
  intro l
  induction l with
  | nil => intro x hx; simp at hx
  | cons a t ih =>
    intro x hx
    cases t with
    | nil =>
      rcases List.mem_cons.mp hx with rfl | hx
      · simp [rmax]
      · simp at hx
    | cons b t2 =>
      rcases List.mem_cons.mp hx with rfl | hx
      · simp only [rmax]
        exact le_max_left _ _
      · calc x ≤ rmax (b :: t2) := ih x hx
          _ ≤ rmax (a :: b :: t2) := by
              simp only [rmax]; exact le_max_right _ _

theorem rmin_const : ∀ (l : List Rat) (c : Rat), l ≠ [] →
    (∀ x ∈ l, x = c) → rmin l = c := by
  intro l
  induction l with
  | nil => intro c h _; exact absurd rfl h
  | cons a t ih =>
    intro c _ hall
    have ha : a = c := hall a (List.mem_cons_self a t)
    cases t with
    | nil => simpa [rmin] using ha
    | cons b t2 =>
      have ht : rmin (b :: t2) = c :=
        ih c (by simp) (fun x hx => hall x (List.mem_cons_of_mem a hx))
      simp only [rmin, ha, ht, min_self]

theorem rmax_const : ∀ (l : List Rat) (c : Rat), l ≠ [] →
    (∀ x ∈ l, x = c) → rmax l = c := by
  intro l
  induction l with
  | nil => intro c h _; exact absurd rfl h
  | cons a t ih =>
    intro c _ hall
    have ha : a = c := hall a (List.mem_cons_self a t)
    cases t with
    | nil => simpa [rmax] using ha
    | cons b t2 =>
      have ht : rmax (b :: t2) = c :=
        ih c (by simp) (fun x hx => hall x (List.mem_cons_of_mem a hx))
      simp only [rmax, ha, ht, max_self]

theorem global_pop_mem_values (inter : List Event) (pings : List Ping)
    (p : Ping) (hp : p ∈ pings) :
    global_pop inter pings p.ping_id ∈ engagement_values inter pings :=
  List.mem_map.mpr ⟨p, hp, rfl⟩

theorem global_pop_norm_bounds (inter : List Event) (pings : List Ping)
    (p : Ping) (hp : p ∈ pings) :
    0 ≤ global_pop_norm inter pings p.ping_id ∧
      global_pop_norm inter pings p.ping_id ≤ 1 := by
  have hv := global_pop_mem_values inter pings p hp
  unfold global_pop_norm
  set vs := engagement_values inter pings with hvs
  by_cases h : rmin vs < rmax vs
  · rw [if_pos h]
    have hlo : rmin vs ≤ global_pop inter pings p.ping_id :=
      rmin_le_of_mem vs _ hv
    have hhi : global_pop inter pings p.ping_id ≤ rmax vs :=
      le_rmax_of_mem vs _ hv
    constructor
    · exact div_nonneg (by linarith) (by linarith)
    · rw [div_le_one (by linarith)]
      linarith
  · rw [if_neg h]
    norm_num

/-- Claim C5: for every catalog item, `global_pop_norm` lies in [0, 1]; and
when all items have equal `global_engagement` (including the all-zero
case), `global_pop_norm` is 0.0 for every item. -/
theorem global_pop_norm_spec (inter : List Event) (pings : List Ping)
    (p : Ping) (hp : p ∈ pings) :
    0 ≤ global_pop_norm inter pings p.ping_id ∧
    global_pop_norm inter pings p.ping_id ≤ 1 ∧
    ((∀ q ∈ pings, global_pop inter pings q.ping_id =
        global_pop inter pings p.ping_id) →
      ∀ q ∈ pings, global_pop_norm inter pings q.ping_id = 0) := by
  obtain ⟨h0, h1⟩ := global_pop_norm_bounds inter pings p hp
  refine ⟨h0, h1, ?_⟩
  intro hall q _
  have hne : engagement_values inter pings ≠ [] := by
    intro h
    have := global_pop_mem_values inter pings p hp
    rw [h] at this
    simp at this
  have hconst : ∀ x ∈ engagement_values inter pings,
      x = global_pop inter pings p.ping_id := by
    intro x hx
    rcases List.mem_map.mp hx with ⟨r, hr, rfl⟩
    exact hall r hr
  have hmin := rmin_const _ _ hne hconst
  have hmax := rmax_const _ _ hne hconst
  unfold global_pop_norm
  rw [if_neg]
  rw [hmin, hmax]
  exact lt_irrefl _

theorem imaxFold_le : ∀ (l : List Int) (a : Int),
    a ≤ imaxFold a l ∧ ∀ x ∈ l, x ≤ imaxFold a l := by
  intro l
  induction l with
  | nil => intro a; exact ⟨le_refl a, by simp [imaxFold]⟩
  | cons b t ih =>
    intro a
    have hstep : imaxFold a (b :: t) = imaxFold (max a b) t := by
      simp [imaxFold]
    have h := ih (max a b)
    refine ⟨?_, ?_⟩
    · rw [hstep]; exact le_trans (le_max_left a b) h.1
    · intro x hx
      rcases List.mem_cons.mp hx with rfl | hx
      · rw [hstep]; exact le_trans (le_max_right a x) h.1
      · rw [hstep]; exact h.2 x hx

theorem le_reference_now (pings : List Ping) (t : Int)
    (ht : t ∈ known_times pings) : t ≤ reference_now pings := by
  unfold reference_now
  cases hk : known_times pings with
  | nil => rw [hk] at ht; simp at ht
  | cons a l =>
    rw [hk] at ht
    rcases List.mem_cons.mp ht with rfl | ht
    · exact (imaxFold_le l t).1
    · exact (imaxFold_le l a).2 t ht

theorem age_days_nonneg (pings : List Ping) (p : Ping) (hp : p ∈ pings) :
    0 ≤ age_days pings p.created_at := by
  cases hc : p.created_at with
  | none => simp [age_days]
  | some t =>
    have ht : t ∈ known_times pings :=
      List.mem_filterMap.mpr ⟨p, hp, by rw [hc]⟩
    have := le_reference_now pings t ht
    simp only [age_days]
    exact Int.fdiv_nonneg (by omega) (by norm_num)

theorem fresh_of_age_pos (d : Int) (hd : 0 ≤ d) : 0 < fresh_of_age d := by
  unfold fresh_of_age
  have : (0 : Rat) < 1 + (d : Rat) := by
    have : (0 : Rat) ≤ (d : Rat) := by exact_mod_cast hd
    linarith
  positivity

theorem fresh_of_age_le_one (d : Int) (hd : 0 ≤ d) : fresh_of_age d ≤ 1 := by
  unfold fresh_of_age
  have h : (0 : Rat) ≤ (d : Rat) := by exact_mod_cast hd
  rw [div_le_one (by linarith)]
  linarith

/-- Claim C6: for every catalog item, freshness = 1 / (1 + age_days) where
`age_days` is the whole-day difference between `reference_now` (the max
known `created_at`, or a fixed fallback date) and the item's `created_at`,
defaulting to 30 when `created_at` is missing; freshness lies in (0, 1] and
is strictly decreasing as `age_days` increases. -/
theorem freshness_spec (pings : List Ping) (p : Ping) (hp : p ∈ pings) :
    freshness pings p = fresh_of_age (age_days pings p.created_at) ∧
    0 < freshness pings p ∧
    freshness pings p ≤ 1 ∧
    (p.created_at = none → age_days pings p.created_at = 30) ∧
    (∀ t : Int, p.created_at = some t →
      age_days pings p.created_at = (reference_now pings - t).fdiv 86400) ∧
    (∀ a b : Int, 0 ≤ a → a < b → fresh_of_age b < fresh_of_age a) := by
  have hage := age_days_nonneg pings p hp
  refine ⟨rfl, fresh_of_age_pos _ hage, fresh_of_age_le_one _ hage,
    ?_, ?_, ?_⟩
  · intro h; simp [age_days, h]
  · intro t ht; simp [age_days, ht]
  · intro a b ha hab
    unfold fresh_of_age
    have ha' : (0 : Rat) < 1 + (a : Rat) := by
      have : (0 : Rat) ≤ (a : Rat) := by exact_mod_cast ha
      linarith
    have hab' : (1 : Rat) + (a : Rat) < 1 + (b : Rat) := by
      have : (a : Rat) < (b : Rat) := by exact_mod_cast hab
      linarith
    exact one_div_lt_one_div_of_lt ha' hab'

/-! ### Concrete witness data -/

def demoPingA : Ping := ⟨"pA", "cr1", "h1", "music", 30, some 1708300800⟩

def demoPingB : Ping := ⟨"pB", "cr2", "h2", "sports", 20, none⟩

def demoCatalog : List Ping := [demoPingA, demoPingB]

theorem global_pop_norm_spec_witness :
    0 ≤ global_pop_norm [] demoCatalog demoPingA.ping_id ∧
    global_pop_norm [] demoCatalog demoPingA.ping_id ≤ 1 ∧
    global_pop_norm [] demoCatalog demoPingA.ping_id = 0 := by
  have h := global_pop_norm_spec [] demoCatalog demoPingA
    (List.mem_cons_self _ _)
  refine ⟨h.1, h.2.1, ?_⟩
  have h0 : ∀ pid : String, global_pop [] demoCatalog pid = 0 := fun _ => rfl
  have hall : ∀ q ∈ demoCatalog, global_pop [] demoCatalog q.ping_id =
      global_pop [] demoCatalog demoPingA.ping_id := by
    intro q _
    rw [h0, h0]
  exact h.2.2 hall demoPingA (List.mem_cons_self _ _)

theorem freshness_spec_witness :
    0 < freshness demoCatalog demoPingA ∧
    freshness demoCatalog demoPingA ≤ 1 ∧
    fresh_of_age 2 < fresh_of_age 1 := by
  have h := freshness_spec demoCatalog demoPingA (List.mem_cons_self _ _)
  exact ⟨h.2.1, h.2.2.1, h.2.2.2.2.2 1 2 (by norm_num) (by norm_num)⟩

/-! ### Recommendation ranker lemmas -/

theorem score_item_ping (inter : List Event) (pings : List Ping)
    (uid : String) (a b c d : Rat) (p : Ping) :
    (score_item inter pings uid a b c d p).ping = p := rfl

theorem score_item_score (inter : List Event) (pings : List Ping)
    (uid : String) (a b c d : Rat) (p : Ping) :
    (score_item inter pings uid a b c d p).score =
      a * global_pop_norm inter pings p.ping_id +
      b * cat_aff_lookup inter pings uid p.category +
      c * cre_aff_lookup inter pings uid p.creator_id +
      d * freshness pings p := rfl

theorem mem_rec_candidates (inter : List Event) (pings : List Ping)
    (uid : String) (a b c d : Rat) (s : ScoredItem) :
    s ∈ rec_candidates inter pings uid a b c d ↔
      (∃ p ∈ pings, s = score_item inter pings uid a b c d p) ∧
      s.ping.ping_id ∉ seen_pings inter uid := by
  unfold rec_candidates
  rw [List.mem_filter, List.mem_map]
  constructor
  · rintro ⟨⟨p, hp, rfl⟩, hdec⟩
    exact ⟨⟨p, hp, rfl⟩, of_decide_eq_true hdec⟩
  · rintro ⟨⟨p, hp, rfl⟩, hns⟩
    exact ⟨⟨p, hp, rfl⟩, decide_eq_true hns⟩

theorem mem_recommend_shape (inter : List Event) (pings : List Ping)
    (uid : String) (k : Nat) (a b c d : Rat) (r : RecRow)
    (hr : r ∈ recommend_for_user inter pings uid k a b c d) :
    ∃ s ∈ rec_candidates inter pings uid a b c d,
      r.ping_id = s.ping.ping_id ∧ r.score = s.score ∧
      r.category = s.ping.category ∧
      r.reason = reason_for s.user_cat_aff s.user_cre_aff s.pop_norm s.fresh
        s.ping.category := by
  unfold recommend_for_user at hr
  rcases List.mem_map.mp hr with ⟨s, hs, rfl⟩
  have hs1 : s ∈ rec_sorted inter pings uid a b c d := List.mem_of_mem_take hs
  have hs2 : s ∈ rec_candidates inter pings uid a b c d := by
    unfold rec_sorted at hs1
    exact (mem_sortValuesDesc _ _ s).mp hs1
  exact ⟨s, hs2, rfl, rfl, rfl, rfl⟩

theorem mem_seen_pings (inter : List Event) (uid : String) (e : Event)
    (he : e ∈ inter) (hu : e.user_id = uid) :
    e.ping_id ∈ seen_pings inter uid := by
  unfold seen_pings
  rw [List.mem_dedup]
  exact List.mem_map.mpr ⟨e, List.mem_filter.mpr ⟨he, decide_eq_true hu⟩, rfl⟩

theorem rec_candidates_length (inter : List Event) (pings : List Ping)
    (uid : String) (a b c d : Rat) :
    (rec_candidates inter pings uid a b c d).length =
      (pings.filter
        (fun p => decide (p.ping_id ∉ seen_pings inter uid))).length := by
  unfold rec_candidates
  rw [List.filter_map, List.length_map]
  congr 1

theorem recommend_length (inter : List Event) (pings : List Ping)
    (uid : String) (k : Nat) (a b c d : Rat) :
    (recommend_for_user inter pings uid k a b c d).length =
      min k (pings.filter
        (fun p => decide (p.ping_id ∉ seen_pings inter uid))).length := by
  unfold recommend_for_user rec_sorted
  rw [List.length_map, List.length_take, length_sortValuesDesc,
    rec_candidates_length]

/-- Claim C3: for every user and every k ≥ 0, the recommendation list
contains no ping_id appearing in any of the user's interaction events (of
any event_type), has at most k rows, and has fewer than k rows exactly when
the catalog minus the user's seen items has fewer than k entries. -/
theorem recommend_excludes_seen (inter : List Event) (pings : List Ping)
    (uid : String) (k : Nat) (a b c d : Rat) :
    (∀ r ∈ recommend_for_user inter pings uid k a b c d,
      ∀ e ∈ inter, e.user_id = uid → r.ping_id ≠ e.ping_id) ∧
    (recommend_for_user inter pings uid k a b c d).length ≤ k ∧
    ((recommend_for_user inter pings uid k a b c d).length < k ↔
      (pings.filter
        (fun p => decide (p.ping_id ∉ seen_pings inter uid))).length < k) := by
  have hlen := recommend_length inter pings uid k a b c d
  refine ⟨?_, ?_, ?_⟩
  · intro r hr e he hu
    obtain ⟨s, hs, hid, -, -, -⟩ :=
      mem_recommend_shape inter pings uid k a b c d r hr
    have hns := ((mem_rec_candidates inter pings uid a b c d s).mp hs).2
    intro heq
    apply hns
    rw [← hid, heq]
    exact mem_seen_pings inter uid e he hu
  · rw [hlen]; omega
  · rw [hlen]; omega

theorem recommend_excludes_seen_witness :
    (recommend_for_user [] demoCatalog "u9" 1 (1/2) (1/4) (3/20) (1/10)).length
      ≤ 1 :=
  (recommend_excludes_seen [] demoCatalog "u9" 1 (1/2) (1/4) (3/20) (1/10)).2.1

/-- Claim C7: for a user absent from all input tables (no events), the
recommender still returns a result — one row per catalog item up to top-k —
and every returned score is `alpha * global_pop_norm + delta * freshness`
(the beta and gamma affinity terms contribute exactly 0). -/
theorem recommend_cold_start (inter : List Event) (pings : List Ping)
    (uid : String) (k : Nat) (a b c d : Rat)
    (huser : ∀ e ∈ inter, e.user_id ≠ uid) :
    (recommend_for_user inter pings uid k a b c d).length =
      min k pings.length ∧
    ∀ r ∈ recommend_for_user inter pings uid k a b c d,
      ∃ p ∈ pings, r.ping_id = p.ping_id ∧
        r.score = a * global_pop_norm inter pings p.ping_id +
          d * freshness pings p := by
  have hev : events_of inter uid = [] := by
    unfold events_of
    rw [List.filter_eq_nil_iff]
    intro e he
    simp only [decide_eq_true_eq]
    exact huser e he
  have hseen : seen_pings inter uid = [] := by
    unfold seen_pings
    rw [hev]
    rfl
  have hca : ∀ c : String, cat_aff_lookup inter pings uid c = 0 := by
    intro c
    unfold cat_aff_lookup user_cat_count
    rw [hev]
    simp
  have hcr : ∀ c : String, cre_aff_lookup inter pings uid c = 0 := by
    intro c
    unfold cre_aff_lookup user_creator_count
    rw [hev]
    simp
  constructor
  · rw [recommend_length, hseen]
    congr 1
    rw [List.filter_length_eq_length]
    intro p _
    simp
  · intro r hr
    obtain ⟨s, hs, hid, hsc, -, -⟩ :=
      mem_recommend_shape inter pings uid k a b c d r hr
    obtain ⟨⟨p, hp, rfl⟩, -⟩ := (mem_rec_candidates inter pings uid a b c d s).mp hs
    refine ⟨p, hp, by rw [hid, score_item_ping], ?_⟩
    rw [hsc, score_item_score, hca, hcr]
    ring

theorem recommend_cold_start_witness :
    (recommend_for_user [] demoCatalog "u9" 5 (1/2) (1/4) (3/20) (1/10)).length
      = min 5 demoCatalog.length :=
  (recommend_cold_start [] demoCatalog "u9" 5 (1/2) (1/4) (3/20) (1/10)
    (by intro e he; simp at he)).1

/-- Claim C8: for every recommended item, the reason string is built by
evaluating, in the fixed order cat-affinity > 0, creator-affinity > 0,
global_pop_norm > 0.5, freshness > 0.02, joining the labels of the true
conditions with "; ", and is exactly the fallback "popular/new" when none
of the four conditions hold. -/
theorem recommend_reason_spec (inter : List Event) (pings : List Ping)
    (uid : String) (k : Nat) (a b c d : Rat) :
    ∀ r ∈ recommend_for_user inter pings uid k a b c d,
      ∃ p ∈ pings,
        r.ping_id = p.ping_id ∧
        r.reason = reason_for (cat_aff_lookup inter pings uid p.category)
          (cre_aff_lookup inter pings uid p.creator_id)
          (global_pop_norm inter pings p.ping_id) (freshness pings p)
          p.category ∧
        ((¬ 0 < cat_aff_lookup inter pings uid p.category) →
          (¬ 0 < cre_aff_lookup inter pings uid p.creator_id) →
          (¬ 1/2 < global_pop_norm inter pings p.ping_id) →
          (¬ 1/50 < freshness pings p) →
          r.reason = "popular/new") ∧
        (0 < cat_aff_lookup inter pings uid p.category →
          0 < cre_aff_lookup inter pings uid p.creator_id →
          1/2 < global_pop_norm inter pings p.ping_id →
          1/50 < freshness pings p →
          r.reason = String.intercalate "; "
            ["prefers cat=" ++ p.category, "engaged this creator",
              "globally popular", "recent"]) := by
  intro r hr
  obtain ⟨s, hs, hid, -, -, hreason⟩ :=
    mem_recommend_shape inter pings uid k a b c d r hr
  obtain ⟨⟨p, hp, rfl⟩, -⟩ := (mem_rec_candidates inter pings uid a b c d s).mp hs
  have hfields : r.reason = reason_for
      (cat_aff_lookup inter pings uid p.category)
      (cre_aff_lookup inter pings uid p.creator_id)
      (global_pop_norm inter pings p.ping_id) (freshness pings p)
      p.category := hreason
  refine ⟨p, hp, by rw [hid, score_item_ping], hfields, ?_, ?_⟩
  · intro h1 h2 h3 h4
    rw [hfields]
    simp only [reason_for]
    rw [if_neg h1, if_neg h2, if_neg h3, if_neg h4]
    simp
  · intro h1 h2 h3 h4
    rw [hfields]
    simp only [reason_for]
    rw [if_pos h1, if_pos h2, if_pos h3, if_pos h4]
    simp

/-- Claim C10: a catalog item with no interaction events at all has
`global_engagement` 0.0 (via the fillna), a well-defined normalized
popularity in [0, 1] and positive freshness, and stays in the candidate
pool of every user's recommendation run. -/
theorem unengaged_item_spec (inter : List Event) (pings : List Ping)
    (p : Ping) (hp : p ∈ pings)
    (hno : ∀ e ∈ inter, e.ping_id ≠ p.ping_id)
    (uid : String) (a b c d : Rat) :
    global_pop inter pings p.ping_id = 0 ∧
    0 ≤ global_pop_norm inter pings p.ping_id ∧
    global_pop_norm inter pings p.ping_id ≤ 1 ∧
    0 < freshness pings p ∧ freshness pings p ≤ 1 ∧
    score_item inter pings uid a b c d p ∈
      rec_candidates inter pings uid a b c d := by
  have hbounds := global_pop_norm_bounds inter pings p hp
  have hage := age_days_nonneg pings p hp
  refine ⟨?_, hbounds.1, hbounds.2, fresh_of_age_pos _ hage,
    fresh_of_age_le_one _ hage, ?_⟩
  · unfold global_pop
    have hfind : (ping_global inter pings).find?
        (fun r => r.ping_id = p.ping_id) = none := by
      rw [List.find?_eq_none]
      intro x hx
      have hxpid : x.ping_id ∈ pingIds inter := by
        unfold ping_global at hx
        rw [mem_sortValuesDesc] at hx
        rcases List.mem_map.mp hx with ⟨pid, hpid, rfl⟩
        exact hpid
      have hxin : x.ping_id ∈ (inter.map (fun e => e.ping_id)) := by
        unfold pingIds at hxpid
        have := (mem_isort _ _ x.ping_id).mp hxpid
        exact List.mem_dedup.mp this
      rcases List.mem_map.mp hxin with ⟨e, he, hpe⟩
      simp only [decide_eq_true_eq]
      rw [← hpe]
      exact hno e he
    rw [hfind]
  · rw [mem_rec_candidates]
    refine ⟨⟨p, hp, rfl⟩, ?_⟩
    rw [score_item_ping]
    intro hin
    unfold seen_pings at hin
    rw [List.mem_dedup] at hin
    rcases List.mem_map.mp hin with ⟨e, he, hpe⟩
    exact hno e (List.mem_of_mem_filter he) hpe

theorem unengaged_item_spec_witness :
    global_pop [] demoCatalog demoPingB.ping_id = 0 ∧
    score_item [] demoCatalog "u9" (1/2) (1/4) (3/20) (1/10) demoPingB ∈
      rec_candidates [] demoCatalog "u9" (1/2) (1/4) (3/20) (1/10) := by
  have h := unengaged_item_spec [] demoCatalog demoPingB
    (by exact List.mem_cons_of_mem _ (List.mem_cons_self _ _))
    (by intro e he; simp at he) "u9" (1/2) (1/4) (3/20) (1/10)
  exact ⟨h.1, h.2.2.2.2.2⟩

/-- The single recommendation row produced for the cold user `u9` on the
one-item catalog `[demoPingB]` with weights (2, 3, 5, 31). -/
def demoRecRow : RecRow := ⟨"pB", 1, "sports", "h2", "cr2", "recent"⟩

theorem demo_score_item_eval :
    score_item [] [demoPingB] "u9" 2 3 5 31 demoPingB =
      ⟨demoPingB, 0, 0, 0, 1/31, 1⟩ := by
  unfold score_item
  norm_num [global_pop_norm, engagement_values, global_pop,
    ping_global, ping_global_unsorted, pingIds, isort, strLeB, rmin, rmax,
    freshness, age_days, reference_now, known_times, fallback_now,
    fresh_of_age, cat_aff_lookup, cre_aff_lookup, user_cat_count,
    user_creator_count, events_of, demoPingB]

theorem demo_recommend_eval :
    recommend_for_user [] [demoPingB] "u9" 1 2 3 5 31 = [demoRecRow] := by
  have hcand : rec_candidates [] [demoPingB] "u9" 2 3 5 31 =
      [⟨demoPingB, 0, 0, 0, 1/31, 1⟩] := by
    unfold rec_candidates
    rw [List.map_singleton, demo_score_item_eval]
    simp [seen_pings, events_of]
  have hsort : rec_sorted [] [demoPingB] "u9" 2 3 5 31 =
      [⟨demoPingB, 0, 0, 0, 1/31, 1⟩] := by
    unfold rec_sorted sortValuesDesc
    rw [hcand]
    simp [isort, insertAsc]
  unfold recommend_for_user
  rw [hsort]
  norm_num [demoRecRow, demoPingB, reason_for]
  decide

theorem recommend_reason_spec_witness :
    ∃ p ∈ ([demoPingB] : List Ping),
      demoRecRow.ping_id = p.ping_id ∧ demoRecRow.reason =
        reason_for (cat_aff_lookup [] [demoPingB] "u9" p.category)
          (cre_aff_lookup [] [demoPingB] "u9" p.creator_id)
          (global_pop_norm [] [demoPingB] p.ping_id)
          (freshness [demoPingB] p) p.category := by
  have hmem : demoRecRow ∈ recommend_for_user [] [demoPingB] "u9" 1 2 3 5 31 := by
    rw [demo_recommend_eval]
    exact List.mem_cons_self _ _
  obtain ⟨p, hp, hid, hreason, -, -⟩ :=
    recommend_reason_spec [] [demoPingB] "u9" 1 2 3 5 31 demoRecRow hmem
  exact ⟨p, hp, hid, hreason⟩

/-! ### Affinity sums (claim C1) -/

theorem count_filterMap_eq {α β : Type} [DecidableEq β] (m : α → Option β)
    (c : β) :
    ∀ l : List α, (l.filterMap m).count c =
      (l.filter (fun x => m x = some c)).length := by
  intro l
  induction l with
  | nil => rfl
  | cons x t ih =>
    cases hm : m x with
    | none =>
      have hcond : ¬ (m x = some c) := by simp [hm]
      simp only [List.filterMap_cons, hm, List.filter_cons]
      simp [hcond, ih]
    | some d =>
      simp only [List.filterMap_cons, hm, List.filter_cons]
      by_cases hdc : d = c
      · subst hdc
        simp [hm, List.count_cons, ih]
      · have hcond : ¬ (m x = some c) := by simp [hm, hdc]
        simp [hcond, List.count_cons, hdc, ih]

theorem sum_map_div (l : List Rat) (t : Rat) :
    (l.map (fun x => x / t)).sum = l.sum / t := by
  induction l with
  | nil => simp
  | cons x xs ih => simp [ih, add_div]

theorem filterMap_comp_map {α β γ : Type} (g : α → Option β) (f : β → γ) :
    ∀ l : List α,
      l.filterMap (fun x => (g x).map f) = (l.filterMap g).map f := by
  intro l
  induction l with
  | nil => rfl
  | cons x t ih =>
    cases hg : g x <;> simp [List.filterMap_cons, hg, ih]

/-- The generic shape of both affinity sums: summing `count c / T` over the
distinct non-null keys of `evs.filterMap m` gives `(number of non-null
rows) / T`. -/
theorem affinity_sum_generic (evs : List Event) (m : Event → Option String)
    (t : Rat) :
    (((evs.filterMap m).dedup).map
      (fun c => ((evs.filter (fun e => m e = some c)).length : Rat) / t)).sum =
      ((evs.filterMap m).length : Rat) / t := by
  set L := evs.filterMap m with hL
  have hmap : L.dedup.map
      (fun c => ((evs.filter (fun e => m e = some c)).length : Rat) / t) =
      L.dedup.map (fun c => ((L.count c : Nat) : Rat) / t) := by
    apply List.map_congr_left
    intro c _
    rw [hL, count_filterMap_eq]
  rw [hmap]
  have h1 : L.dedup.map (fun c => ((L.count c : Nat) : Rat) / t) =
      (L.dedup.map (fun c => ((L.count c : Nat) : Rat))).map
        (fun x => x / t) := by
    rw [List.map_map]
    rfl
  have h2 : L.dedup.map (fun c => ((L.count c : Nat) : Rat)) =
      (L.dedup.map (fun c => L.count c)).map (fun n : Nat => (n : Rat)) := by
    rw [List.map_map]
    rfl
  rw [h1, sum_map_div, h2, ← Nat.cast_list_sum,
    List.sum_map_count_dedup_eq_length]

theorem cat_affinity_sum_eq (inter : List Event) (pings : List Ping)
    (uid : String) :
    cat_affinity_sum inter pings uid =
      (matched_count inter pings uid : Rat) / (user_total inter uid : Rat) :=
  affinity_sum_generic (events_of inter uid)
    (fun e => matched_category pings e.ping_id)
    ((user_total inter uid : Nat) : Rat)

theorem matched_creator_length_eq (inter : List Event) (pings : List Ping)
    (uid : String) :
    ((events_of inter uid).filterMap
      (fun e => matched_creator pings e.ping_id)).length =
      matched_count inter pings uid := by
  unfold matched_count
  simp only [matched_creator, matched_category]
  rw [filterMap_comp_map (fun e : Event =>
      pings.find? (fun p => p.ping_id = e.ping_id)) (fun p => p.creator_id),
    filterMap_comp_map (fun e : Event =>
      pings.find? (fun p => p.ping_id = e.ping_id)) (fun p => p.category),
    List.length_map, List.length_map]

theorem creator_affinity_sum_eq (inter : List Event) (pings : List Ping)
    (uid : String) :
    creator_affinity_sum inter pings uid =
      (matched_count inter pings uid : Rat) / (user_total inter uid : Rat) := by
  have h := affinity_sum_generic (events_of inter uid)
    (fun e => matched_creator pings e.ping_id)
    ((user_total inter uid : Nat) : Rat)
  rw [matched_creator_length_eq] at h
  exact h

/-- Claim C1 (amended): for every user, the category affinities sum to
`matched_count / user_total` (and likewise creator affinities), where
`user_total` counts ALL of the user's events — including events whose
ping_id has no catalog match, which the source's
`int_meta.groupby('user_id').size()` does NOT exclude from the denominator.
The sums equal 1.0 exactly when every event of the user is
catalog-matched; a user with zero events is absent from both affinity
tables. -/
theorem affinity_sums_spec (inter : List Event) (pings : List Ping)
    (uid : String) :
    cat_affinity_sum inter pings uid =
      (matched_count inter pings uid : Rat) / (user_total inter uid : Rat) ∧
    creator_affinity_sum inter pings uid =
      (matched_count inter pings uid : Rat) / (user_total inter uid : Rat) ∧
    (0 < user_total inter uid →
      matched_count inter pings uid = user_total inter uid →
      cat_affinity_sum inter pings uid = 1 ∧
      creator_affinity_sum inter pings uid = 1) ∧
    (user_total inter uid = 0 →
      user_categories inter pings uid = [] ∧
      user_creators inter pings uid = []) := by
  refine ⟨cat_affinity_sum_eq inter pings uid,
    creator_affinity_sum_eq inter pings uid, ?_, ?_⟩
  · intro hpos heq
    have hne : ((user_total inter uid : Nat) : Rat) ≠ 0 := by
      rw [Nat.cast_ne_zero]
      omega
    constructor
    · rw [cat_affinity_sum_eq, heq, div_self hne]
    · rw [creator_affinity_sum_eq, heq, div_self hne]
  · intro h0
    have hev : events_of inter uid = [] := by
      have := h0
      unfold user_total at this
      exact List.length_eq_zero.mp this
    unfold user_categories user_creators
    rw [hev]
    exact ⟨rfl, rfl⟩

def demo1Catalog : List Ping := [⟨"p1", "cr1", "h1", "catA", 30, none⟩]

def demo1Inter : List Event :=
  [⟨"u1", "p1", "like", none⟩, ⟨"u1", "p2", "like", none⟩]

/-- Claim C1 counterexample: user u1 has one catalog-matched event (on p1)
and one event on p2 which is absent from the catalog; the category and
creator affinity sums are 1/2, not 1.0, because the unmatched event counts
in the denominator. -/
theorem affinity_sums_counterexample :
    1 ≤ matched_count demo1Inter demo1Catalog "u1" ∧
    cat_affinity_sum demo1Inter demo1Catalog "u1" ≠ 1 ∧
    creator_affinity_sum demo1Inter demo1Catalog "u1" ≠ 1 := by
  have h1 : matched_count demo1Inter demo1Catalog "u1" = 1 := by decide
  have h2 : user_total demo1Inter "u1" = 2 := by decide
  refine ⟨by omega, ?_, ?_⟩
  · rw [cat_affinity_sum_eq, h1, h2]
    norm_num
  · rw [creator_affinity_sum_eq, h1, h2]
    norm_num

def demo1InterMatched : List Event := [⟨"u1", "p1", "like", none⟩]

theorem affinity_sums_spec_witness :
    cat_affinity_sum demo1InterMatched demo1Catalog "u1" = 1 ∧
    creator_affinity_sum demo1InterMatched demo1Catalog "u1" = 1 :=
  (affinity_sums_spec demo1InterMatched demo1Catalog "u1").2.2.1
    (by decide) (by decide)

/-! ### Ordering of the ping_global table (claim C2) -/

theorem strLeB_total (a b : String) : strLeB a b = true ∨ strLeB b a = true := by
  rw [strLeB, strLeB, decide_eq_true_iff, decide_eq_true_iff]
  exact le_total a.data b.data

theorem strLeB_trans (a b c : String) (hab : strLeB a b = true)
    (hbc : strLeB b c = true) : strLeB a c = true := by
  rw [strLeB, decide_eq_true_iff] at hab hbc ⊢
  exact le_trans hab hbc

theorem pingIds_sorted (inter : List Event) :
    (pingIds inter).Pairwise (fun a b => a < b) := by
  have hle : (pingIds inter).Pairwise (fun a b => strLeB a b = true) :=
    pairwise_isort strLeB strLeB_total strLeB_trans _
  have hnd : (pingIds inter).Nodup :=
    ((perm_isort strLeB _).nodup_iff).mpr
      (List.nodup_dedup _)
  refine (hle.and hnd).imp ?_
  rintro a b ⟨h1, h2⟩
  rw [strLeB, decide_eq_true_iff] at h1
  rw [string_lt_iff_data_lt]
  refine lt_of_le_of_ne h1 ?_
  intro hdata
  exact h2 (by
    cases a
    cases b
    simp only at hdata
    rw [hdata])

theorem ping_global_unsorted_keys_sorted (inter : List Event)
    (pings : List Ping) :
    (ping_global_unsorted inter pings).Pairwise
      (fun a b => a.ping_id < b.ping_id) := by
  unfold ping_global_unsorted
  rw [List.pairwise_map]
  exact pingIds_sorted inter

/-- Claim C2: the `ping_global` output table is sorted descending by
`global_engagement`, and whenever two pings have equal `global_engagement`,
the one with the smaller `ping_id` appears first (ties ping_id ascending):
the groupby emits ping_ids ascending and pandas' descending `sort_values`
is stable (it reverses rows and positions before the ascending argsort and
reverses the composed indexer after), so tied rows keep that order. -/
theorem ping_global_sorted (inter : List Event) (pings : List Ping) :
    (ping_global inter pings).Pairwise (fun a b =>
      b.global_engagement < a.global_engagement ∨
      (b.global_engagement = a.global_engagement ∧ a.ping_id < b.ping_id)) := by
  unfold ping_global sortValuesDesc
  rw [List.pairwise_reverse]
  have hrev : (ping_global_unsorted inter pings).reverse.Pairwise
      (fun a b : GRow => b.ping_id < a.ping_id) := by
    rw [List.pairwise_reverse]
    exact ping_global_unsorted_keys_sorted inter pings
  exact isort_pairwise_lex (fun r : GRow => r.global_engagement)
    (fun a b : GRow => b.ping_id < a.ping_id)
    (ping_global_unsorted inter pings).reverse hrev

def demo2Inter : List Event :=
  [⟨"u1", "p1", "like", none⟩, ⟨"u2", "p2", "like", none⟩]

theorem demo2_like_score : event_score_row [] ⟨"u1", "p1", "like", none⟩ = 2 ∧
    event_score_row [] ⟨"u2", "p2", "like", none⟩ = 2 := by
  have hne : ("like" : String) ≠ "view" := by decide
  constructor <;>
    simp [event_score_row, event_score, weights, watch_time_ratio,
      resolved_duration, hne]

theorem demo2_global_engagement1 : global_engagement demo2Inter [] "p1" = 2 := by
  have hu : users_of_ping demo2Inter "p1" = ["u1"] := by decide
  have hf : demo2Inter.filter
      (fun e => e.user_id = "u1" ∧ e.ping_id = "p1") =
      [⟨"u1", "p1", "like", none⟩] := by decide
  unfold global_engagement
  rw [hu]
  simp only [List.map_singleton, List.sum_singleton]
  unfold user_ping_engagement
  rw [hf]
  simp only [List.map_singleton, List.sum_singleton]
  exact demo2_like_score.1

theorem demo2_global_engagement2 : global_engagement demo2Inter [] "p2" = 2 := by
  have hu : users_of_ping demo2Inter "p2" = ["u2"] := by decide
  have hf : demo2Inter.filter
      (fun e => e.user_id = "u2" ∧ e.ping_id = "p2") =
      [⟨"u2", "p2", "like", none⟩] := by decide
  unfold global_engagement
  rw [hu]
  simp only [List.map_singleton, List.sum_singleton]
  unfold user_ping_engagement
  rw [hf]
  simp only [List.map_singleton, List.sum_singleton]
  exact demo2_like_score.2

/-- Concrete check of the sort model at a tied input: two pings p1 < p2
with equal global engagement (one like each) come out of `ping_global` in
ping_id ascending order [p1, p2] — the stable descending `sort_values`
keeps the groupby's ascending tie order. -/
theorem ping_global_demo_eval :
    (ping_global demo2Inter []).map (fun r => r.ping_id) = ["p1", "p2"] ∧
    ("p1" : String) < "p2" ∧
    (ping_global demo2Inter []).map (fun r => r.global_engagement) = [2, 2] := by
  have hids : pingIds demo2Inter = ["p1", "p2"] := by decide
  have he1 := demo2_global_engagement1
  have he2 := demo2_global_engagement2
  have hu1 : (users_of_ping demo2Inter "p1").length = 1 := by decide
  have hu2 : (users_of_ping demo2Inter "p2").length = 1 := by decide
  have hrows : ping_global_unsorted demo2Inter [] =
      [⟨"p1", 2, 1⟩, ⟨"p2", 2, 1⟩] := by
    unfold ping_global_unsorted
    rw [hids]
    rw [List.map_cons, List.map_cons, List.map_nil, he1, he2, hu1, hu2]
  have hsorted : ping_global demo2Inter [] = [⟨"p1", 2, 1⟩, ⟨"p2", 2, 1⟩] := by
    unfold ping_global sortValuesDesc
    rw [hrows]
    norm_num [isort, insertAsc]
  rw [hsorted]
  refine ⟨rfl, ?_, by norm_num⟩
  rw [string_lt_iff_data_lt]
  decide

end PingRecs
